import Mathlib

/-!
Verification of the derived-metric logic of the TALENVY analytics repository.

The repository's computational core consists of:
* `calculate_metrics` in `Stock__Analysis/stock_dashboard.py`: per-ticker
  daily returns (`pct_change() * 100`), 20/50-day rolling means, and a
  14-day RSI built from clipped day-over-day deltas;
* the shipping-interval bucketing in
  `scripts/enhanced_sales_analysis.py` (`pd.cut` with bins `[0, 7, 30, inf]`);
* the campaign aggregation and lift computation in
  `scripts/sales_analysis.py` (`marketing_campaign_impact`);
* the IQR outlier capping in `scripts/clean_retail_data.py`.

Numeric columns are embedded as lists of rationals.  Where pandas produces
IEEE-754 special values (NaN from `0/0` or from an unfilled rolling window,
signed infinities from division by zero), the embedding uses the explicit
sum type `PVal` below, so every claim about "undefined" outputs is a claim
about `PVal.nan` / `Option.none` rather than about a float bit pattern.
-/

/-- Model of a pandas float cell: a finite rational, a signed infinity, or
NaN.  `nan` is the value pandas displays as missing/undefined. -/
inductive PVal where
  | num : ℚ → PVal
  | inf : PVal
  | neginf : PVal
  | nan : PVal
deriving DecidableEq, Repr

/-- IEEE-style division of two exact rationals, as numpy/pandas performs it
elementwise: `a / 0` is `+inf` for positive `a`, `-inf` for negative `a`,
and NaN for `0 / 0`. -/
def ratDivF (a b : ℚ) : PVal :=
  if b = 0 then
    if 0 < a then PVal.inf else if a < 0 then PVal.neginf else PVal.nan
  else PVal.num (a / b)

/-- Subtraction of a finite constant, with IEEE propagation of infinities
and NaN. -/
def PVal.subF : PVal → ℚ → PVal
  | PVal.num r, c => PVal.num (r - c)
  | PVal.inf, _ => PVal.inf
  | PVal.neginf, _ => PVal.neginf
  | PVal.nan, _ => PVal.nan

/-- Multiplication by a finite constant, with IEEE sign handling for the
infinite cases (`inf * 0` is NaN). -/
def PVal.mulF : PVal → ℚ → PVal
  | PVal.num r, c => PVal.num (r * c)
  | PVal.inf, c => if 0 < c then PVal.inf else if c < 0 then PVal.neginf else PVal.nan
  | PVal.neginf, c => if 0 < c then PVal.neginf else if c < 0 then PVal.inf else PVal.nan
  | PVal.nan, _ => PVal.nan

/-- Whether a pandas cell holds an actual (finite) number. -/
def PVal.isNum : PVal → Bool
  | PVal.num _ => true
  | _ => false

/-! ## Shipping-interval bucketing

`enhanced_sales_analysis.py` line 77 classifies `shipping_days` with
`pd.cut(..., bins=[0, 7, 30, float('inf')], labels=[...])`.  `pd.cut`
uses right-closed intervals `(0, 7], (7, 30], (30, inf]` and, with the
default `include_lowest=False`, a value at or below the lowest edge `0`
falls in no bin and receives the null label. -/

/-- Label assigned to one `shipping_days` value by the `pd.cut` call:
`none` models the null (NaN) category produced for values outside every
bin. -/
def shippingInterval (d : ℚ) : Option String :=
  if 0 < d ∧ d ≤ 7 then some "Within 7 days"
  else if 7 < d ∧ d ≤ 30 then some "Within 30 days"
  else if 30 < d then some "After 30 days"
  else none

/-- Elementwise bucketing of a shipping-days column. -/
def shippingIntervals (ds : List ℚ) : List (Option String) :=
  ds.map shippingInterval

/-! ## Stock dashboard metrics (`calculate_metrics`)

The source groups the table by `Ticker`, sorts each group by `Date`, and
adds four derived columns: `Daily_Return`, `MA20`, `MA50`, `RSI`. -/

/-- The trailing window of `rolling(window=N)` at 0-based row `i`: the
last `N` values up to and including row `i`. -/
def windowSlice (N i : ℕ) (xs : List ℚ) : List ℚ :=
  (xs.take (i + 1)).drop (i + 1 - N)

/-- `series.rolling(window=N).mean()`: NaN (here `none`) until the window
holds `N` values, thereafter the arithmetic mean of the trailing `N`
values. -/
def rollingMean (N : ℕ) (xs : List ℚ) : List (Option ℚ) :=
  (List.range xs.length).map (fun i =>
    if N ≤ i + 1 then some ((windowSlice N i xs).sum / (N : ℚ)) else none)

/-- `series.diff()`: NaN at the first row, else the difference with the
previous row. -/
def diffs (xs : List ℚ) : List (Option ℚ) :=
  (List.range xs.length).map (fun i =>
    match i with
    | 0 => none
    | j + 1 => some (xs.getD (j + 1) 0 - xs.getD j 0))

/-- `delta.where(delta > 0, 0)`: positive deltas kept, all others
(including the leading NaN, whose comparison is false) replaced by 0. -/
def gains (xs : List ℚ) : List ℚ :=
  (diffs xs).map (fun d =>
    match d with
    | some v => if 0 < v then v else 0
    | none => 0)

/-- `-delta.where(delta < 0, 0)`: negated negative deltas, all others
(including the leading NaN) replaced by 0. -/
def losses (xs : List ℚ) : List ℚ :=
  (diffs xs).map (fun d =>
    match d with
    | some v => if v < 0 then -v else 0
    | none => 0)

/-- `gain.rolling(window=14).mean()`. -/
def avgGain (xs : List ℚ) : List (Option ℚ) := rollingMean 14 (gains xs)

/-- `loss.rolling(window=14).mean()`. -/
def avgLoss (xs : List ℚ) : List (Option ℚ) := rollingMean 14 (losses xs)

/-- Elementwise `avg_gain / avg_loss` on cells that may be NaN. -/
def optDivF : Option ℚ → Option ℚ → PVal
  | some a, some b => ratDivF a b
  | _, _ => PVal.nan

/-- `100 - (100 / (1 + rs))` applied to one relative-strength cell, with
IEEE semantics: `rs = ±inf` gives exactly 100, NaN propagates, and a zero
denominator (impossible for the nonnegative `rs` the source produces)
would give `-inf`. -/
def rsiOf : PVal → PVal
  | PVal.num r => if 1 + r = 0 then PVal.neginf else PVal.num (100 - 100 / (1 + r))
  | PVal.inf => PVal.num 100
  | PVal.neginf => PVal.num 100
  | PVal.nan => PVal.nan

/-- The `RSI` column for one ticker's price series. -/
def rsiList (xs : List ℚ) : List PVal :=
  (List.range xs.length).map (fun i =>
    rsiOf (optDivF ((avgGain xs).getD i none) ((avgLoss xs).getD i none)))

/-- `series.pct_change() * 100`: NaN at the first row, else
`(cur / prev - 1) * 100` with IEEE division. -/
def pctChangeList (xs : List ℚ) : List PVal :=
  (List.range xs.length).map (fun i =>
    match i with
    | 0 => PVal.nan
    | j + 1 => ((ratDivF (xs.getD (j + 1) 0) (xs.getD j 0)).subF 1).mulF 100)

/-! ## Sorting

`sort_values` and the sorted key order of `groupby` are modelled by a
deterministic insertion sort parameterised by a boolean comparison.
(The source's sort is unstable and its order on ties is unspecified, so
any comparison-respecting sort is a faithful embedding.) -/

/-- Lexicographic strict order on character lists, by code point. -/
def strLtChars : List Char → List Char → Bool
  | [], [] => false
  | [], _ :: _ => true
  | _ :: _, [] => false
  | a :: as, b :: bs =>
    if a.val < b.val then true else if b.val < a.val then false else strLtChars as bs

/-- Lexicographic at-most order on strings — the ascending key order
`groupby` sorts its group keys into. -/
def strLeB (a b : String) : Bool := !(strLtChars b.data a.data)

/-- Insert an element into a list, before the first element it compares
at-or-below. -/
def insertLe (le : α → α → Bool) (a : α) : List α → List α
  | [] => [a]
  | b :: bs => if le a b then a :: b :: bs else b :: insertLe le a bs

/-- Insertion sort by a boolean comparison. -/
def sortLe (le : α → α → Bool) : List α → List α
  | [] => []
  | a :: as => insertLe le a (sortLe le as)

/-! ## The stock table and `calculate_metrics` -/

/-- One input row of the stock table: subject key, timestamp and the
price column the dashboard selected. -/
structure Row where
  ticker : String
  date : ℤ
  price : ℚ
deriving DecidableEq, Repr

/-- One output row of `calculate_metrics`: the input fields plus the four
derived columns. -/
structure MetricRow where
  ticker : String
  date : ℤ
  price : ℚ
  dailyReturn : PVal
  ma20 : Option ℚ
  ma50 : Option ℚ
  rsi : PVal
deriving DecidableEq, Repr

/-- A group as `groupby` yields it: rows with the given ticker in input
order. -/
def rowsOf (t : String) (l : List Row) : List Row :=
  l.filter (fun r => r.ticker == t)

/-- `group.sort_values('Date')`. -/
def sortDate (g : List Row) : List Row :=
  sortLe (fun a b => decide (a.date ≤ b.date)) g

/-- The sorted, deduplicated group keys over which `groupby('Ticker')`
iterates. -/
def tickers (l : List Row) : List String :=
  sortLe strLeB ((l.map Row.ticker).dedup)

/-- Concatenation of the per-group results, as `pd.concat(results)`
performs it. -/
def concatMap (f : α → List β) : List α → List β
  | [] => []
  | a :: as => f a ++ concatMap f as

/-- The body of the per-ticker loop: attach `Daily_Return`, `MA20`,
`MA50` and `RSI` to each row of one date-sorted group. -/
def calcGroup (g : List Row) : List MetricRow :=
  let ps := g.map Row.price
  let dr := pctChangeList ps
  let m20 := rollingMean 20 ps
  let m50 := rollingMean 50 ps
  let rs := rsiList ps
  (List.range g.length).map (fun i =>
    { ticker := (g.getD i ⟨"", 0, 0⟩).ticker
      date := (g.getD i ⟨"", 0, 0⟩).date
      price := (g.getD i ⟨"", 0, 0⟩).price
      dailyReturn := dr.getD i PVal.nan
      ma20 := m20.getD i none
      ma50 := m50.getD i none
      rsi := rs.getD i PVal.nan })

/-- `calculate_metrics`: group by ticker, sort each group by date, derive
the metric columns, concatenate the groups back. -/
def calculate_metrics (l : List Row) : List MetricRow :=
  concatMap (fun t => calcGroup (sortDate (rowsOf t l))) (tickers l)

/-! ## Campaign aggregation and lift (`marketing_campaign_impact`)

The input is the `(campaign_id, sales_amount)` projection of the sales
table.  `groupby('campaign_id')['sales_amount'].agg(['sum','mean','count'])`
produces one row per distinct campaign, and when the `'No Campaign'`
baseline is present a `sales_lift_pct` column rounded to two decimals is
added. -/

/-- Sum of `sales_amount` over one campaign's rows. -/
def groupTotal (k : String) (rows : List (String × ℚ)) : ℚ :=
  ((rows.filter (fun r => r.1 == k)).map Prod.snd).sum

/-- Number of rows of one campaign. -/
def groupCount (k : String) (rows : List (String × ℚ)) : ℕ :=
  (rows.filter (fun r => r.1 == k)).length

/-- Mean `sales_amount` of one campaign (`avg_sale`). -/
def groupAvg (k : String) (rows : List (String × ℚ)) : ℚ :=
  groupTotal k rows / (groupCount k rows : ℚ)

/-- The distinct campaign ids, in the sorted order `groupby` uses. -/
def campaignKeys (rows : List (String × ℚ)) : List String :=
  sortLe strLeB ((rows.map Prod.fst).dedup)

/-- One row of the aggregate table: `total_sales`, `avg_sale`,
`num_transactions` for one campaign. -/
structure CampaignAgg where
  key : String
  total : ℚ
  avg : ℚ
  cnt : ℕ
deriving DecidableEq, Repr

/-- The aggregate table, sorted by `total_sales` descending
(`sort_values('sum', ascending=False)`). -/
def campaignSales (rows : List (String × ℚ)) : List CampaignAgg :=
  sortLe (fun a b => decide (b.total ≤ a.total))
    ((campaignKeys rows).map (fun k =>
      { key := k
        total := groupTotal k rows
        avg := groupAvg k rows
        cnt := groupCount k rows }))

/-- Round a rational to the nearest integer, ties to even — the rounding
`Series.round` applies (numpy half-to-even). -/
def roundHalfEven (x : ℚ) : ℤ :=
  if x - ⌊x⌋ < 1 / 2 then ⌊x⌋
  else if (1 : ℚ) / 2 < x - ⌊x⌋ then ⌊x⌋ + 1
  else if 2 ∣ ⌊x⌋ then ⌊x⌋ else ⌊x⌋ + 1

/-- `.round(2)`: round to two decimal places, half to even. -/
def round2 (x : ℚ) : ℚ := (roundHalfEven (x * 100) : ℚ) / 100

/-- Rounding of a pandas cell: finite values are rounded, infinities and
NaN pass through (`np.round(inf) = inf`). -/
def PVal.round2F : PVal → PVal
  | PVal.num r => PVal.num (round2 r)
  | v => v

/-- `((avg_sale - baseline) / baseline * 100).round(2)` for one
aggregate row, with IEEE division for a zero baseline. -/
def liftVal (avg b : ℚ) : PVal :=
  (((ratDivF (avg - b) b).mulF 100)).round2F

/-- The `sales_lift_pct` column keyed by campaign, computed only when
the `'No Campaign'` baseline row exists. -/
def liftColumn (rows : List (String × ℚ)) : Option (List (String × PVal)) :=
  if "No Campaign" ∈ campaignKeys rows then
    some ((campaignSales rows).map (fun a =>
      (a.key, liftVal a.avg (groupAvg "No Campaign" rows))))
  else none

/-- Return value of `marketing_campaign_impact`: the aggregate table and
the optional lift column. -/
def marketing_campaign_impact (rows : List (String × ℚ)) :
    List CampaignAgg × Option (List (String × PVal)) :=
  (campaignSales rows, liftColumn rows)

/-! ## Retail outlier capping (`clean_retail_data`, step 5) -/

/-- Linear interpolation of a sorted value list at fractional position
`h`: `s[floor h] + (h - floor h) * (s[ceil h] - s[floor h])`. -/
def interpAt (s : List ℚ) (h : ℚ) : ℚ :=
  s.getD (Int.toNat ⌊h⌋) 0 +
    (h - (⌊h⌋ : ℚ)) * (s.getD (Int.toNat ⌈h⌉) 0 - s.getD (Int.toNat ⌊h⌋) 0)

/-- `Series.quantile(q)` with the default linear interpolation: the
sorted values interpolated at position `q * (n - 1)`. -/
def quantileLinear (xs : List ℚ) (q : ℚ) : ℚ :=
  let s := sortLe (fun a b => decide (a ≤ b)) xs
  interpAt s (q * ((s.length : ℚ) - 1))

/-- The IQR fences `Q1 - 1.5*IQR` and `Q3 + 1.5*IQR` of one column. -/
def iqrBounds (xs : List ℚ) : ℚ × ℚ :=
  let q1 := quantileLinear xs (1 / 4)
  let q3 := quantileLinear xs (3 / 4)
  (q1 - 3 / 2 * (q3 - q1), q3 + 3 / 2 * (q3 - q1))

/-- Step 5 of `clean_retail_data` on one column: compute the fences from
the column's current values and, if any value lies outside them, clip
every value into the fences (`Series.clip`). -/
def capColumn (xs : List ℚ) : List ℚ :=
  let lo := (iqrBounds xs).1
  let hi := (iqrBounds xs).2
  if xs.any (fun x => decide (x < lo) || decide (hi < x)) then
    xs.map (fun x => min (max x lo) hi)
  else xs

/-- The three numeric columns the outlier loop treats. -/
structure RetailCols where
  price : List ℚ
  quantity : List ℚ
  sales : List ℚ

/-- The outlier-capping loop over `['price', 'quantity', 'sales_amount']`:
each column is capped using fences from its own pre-capping values. -/
def capOutliers (d : RetailCols) : RetailCols :=
  { price := capColumn d.price
    quantity := capColumn d.quantity
    sales := capColumn d.sales }

/-! ## Helper lemmas on the embedding -/

theorem mem_insertLe (le : α → α → Bool) (a x : α) (l : List α) :
    x ∈ insertLe le a l ↔ x = a ∨ x ∈ l := by
  induction l with
  | nil => simp [insertLe]
  | cons b bs ih =>
    by_cases h : le a b = true
    · simp [insertLe, h]
    · simp only [insertLe, if_neg h, List.mem_cons, ih]
      tauto

theorem mem_sortLe (le : α → α → Bool) (x : α) (l : List α) :
    x ∈ sortLe le l ↔ x ∈ l := by
  induction l with
  | nil => simp [sortLe]
  | cons a as ih => simp [sortLe, mem_insertLe, ih]

theorem length_insertLe (le : α → α → Bool) (a : α) (l : List α) :
    (insertLe le a l).length = l.length + 1 := by
  induction l with
  | nil => rfl
  | cons b bs ih =>
    by_cases h : le a b = true
    · simp [insertLe, h]
    · simp [insertLe, h, ih]

theorem length_sortLe (le : α → α → Bool) (l : List α) :
    (sortLe le l).length = l.length := by
  induction l with
  | nil => rfl
  | cons a as ih => simp [sortLe, length_insertLe, ih]

theorem nodup_insertLe (le : α → α → Bool) (a : α) (l : List α)
    (ha : a ∉ l) (hl : l.Nodup) : (insertLe le a l).Nodup := by
  induction l with
  | nil => simp [insertLe]
  | cons b bs ih =>
    rcases List.nodup_cons.mp hl with ⟨hb, hbs⟩
    by_cases h : le a b = true
    · rw [show insertLe le a (b :: bs) = a :: b :: bs by simp [insertLe, h]]
      exact List.nodup_cons.mpr ⟨by simpa using ha, hl⟩
    · rw [show insertLe le a (b :: bs) = b :: insertLe le a bs by simp [insertLe, h]]
      refine List.nodup_cons.mpr ⟨?_, ih (fun hm => ha (List.mem_cons_of_mem _ hm)) hbs⟩
      intro hmem
      rcases (mem_insertLe le a b bs).mp hmem with h1 | h1
      · exact ha (by rw [← h1]; exact List.mem_cons_self b bs)
      · exact hb h1

theorem nodup_sortLe (le : α → α → Bool) (l : List α) (hl : l.Nodup) :
    (sortLe le l).Nodup := by
  induction l with
  | nil => simp [sortLe]
  | cons a as ih =>
    rcases List.nodup_cons.mp hl with ⟨ha, has⟩
    exact nodup_insertLe le a (sortLe le as)
      (fun hm => ha ((mem_sortLe le a as).mp hm)) (ih has)

theorem pairwise_insertLe {α : Type} [LinearOrder α] (a : α) (l : List α)
    (hl : List.Pairwise (· ≤ ·) l) :
    List.Pairwise (· ≤ ·) (insertLe (fun x y => decide (x ≤ y)) a l) := by
  induction l with
  | nil => simp [insertLe]
  | cons b bs ih =>
    rcases List.pairwise_cons.mp hl with ⟨hb, hbs⟩
    by_cases h : a ≤ b
    · rw [show insertLe (fun x y => decide (x ≤ y)) a (b :: bs) = a :: b :: bs by
        simp [insertLe, h]]
      refine List.pairwise_cons.mpr ⟨?_, hl⟩
      intro x hx
      rcases List.mem_cons.mp hx with rfl | hx
      · exact h
      · exact le_trans h (hb x hx)
    · have hba : b ≤ a := le_of_not_le h
      simp only [insertLe, decide_eq_true_eq, if_neg h]
      refine List.pairwise_cons.mpr ⟨?_, ih hbs⟩
      intro x hx
      rcases (mem_insertLe _ a x bs).mp hx with rfl | hx
      · exact hba
      · exact hb x hx

theorem pairwise_sortLe {α : Type} [LinearOrder α] (l : List α) :
    List.Pairwise (· ≤ ·) (sortLe (fun x y => decide (x ≤ y)) l) := by
  induction l with
  | nil => simp [sortLe]
  | cons a as ih => exact pairwise_insertLe a _ ih

theorem length_range_map {α : Type} (n : ℕ) (f : ℕ → α) :
    ((List.range n).map f).length = n := by simp

theorem getD_range_map {α : Type} (n i : ℕ) (f : ℕ → α) (d : α) (h : i < n) :
    ((List.range n).map f).getD i d = f i := by
  rw [List.getD_eq_getElem _ _ (by simpa using h)]
  simp

theorem length_rollingMean (N : ℕ) (xs : List ℚ) :
    (rollingMean N xs).length = xs.length := by simp [rollingMean]

theorem length_gains (xs : List ℚ) : (gains xs).length = xs.length := by
  simp [gains, diffs]

theorem length_losses (xs : List ℚ) : (losses xs).length = xs.length := by
  simp [losses, diffs]

theorem getD_rollingMean (N : ℕ) (xs : List ℚ) (i : ℕ) (h : i < xs.length) :
    (rollingMean N xs).getD i none =
      if N ≤ i + 1 then some ((windowSlice N i xs).sum / (N : ℚ)) else none :=
  getD_range_map xs.length i _ none h

theorem getD_rsiList (xs : List ℚ) (i : ℕ) (h : i < xs.length) :
    (rsiList xs).getD i PVal.nan =
      rsiOf (optDivF ((avgGain xs).getD i none) ((avgLoss xs).getD i none)) :=
  getD_range_map xs.length i _ PVal.nan h

theorem getD_pctChangeList (xs : List ℚ) (j : ℕ) (h : j + 1 < xs.length) :
    (pctChangeList xs).getD (j + 1) PVal.nan =
      ((ratDivF (xs.getD (j + 1) 0) (xs.getD j 0)).subF 1).mulF 100 :=
  getD_range_map xs.length (j + 1) _ PVal.nan h

theorem gains_nonneg (xs : List ℚ) : ∀ x ∈ gains xs, 0 ≤ x := by
  intro x hx
  rcases List.mem_map.mp hx with ⟨d, _, rfl⟩
  match d with
  | none => simp
  | some v =>
    by_cases hv : 0 < v
    · simp [hv, le_of_lt hv]
    · simp [hv]

theorem losses_nonneg (xs : List ℚ) : ∀ x ∈ losses xs, 0 ≤ x := by
  intro x hx
  rcases List.mem_map.mp hx with ⟨d, _, rfl⟩
  match d with
  | none => simp
  | some v =>
    by_cases hv : v < 0
    · simp [hv, le_of_lt (neg_pos.mpr hv)]
    · simp [hv]

theorem windowSlice_mem (N i : ℕ) (xs : List ℚ) :
    ∀ y ∈ windowSlice N i xs, y ∈ xs := by
  intro y hy
  exact (xs.take_subset (i + 1)) (((xs.take (i + 1)).drop_subset (i + 1 - N)) hy)

theorem rollingMean_nonneg (N : ℕ) (xs : List ℚ) (i : ℕ) (v : ℚ)
    (hxs : ∀ x ∈ xs, 0 ≤ x) (h : (rollingMean N xs).getD i none = some v) :
    0 ≤ v := by
  by_cases hi : i < xs.length
  · rw [getD_rollingMean N xs i hi] at h
    by_cases hN : N ≤ i + 1
    · rw [if_pos hN] at h
      have hsum : 0 ≤ (windowSlice N i xs).sum :=
        List.sum_nonneg (fun y hy => hxs y (windowSlice_mem N i xs y hy))
      have := Option.some_injective _ h
      rw [← this]
      exact div_nonneg hsum (by positivity)
    · rw [if_neg hN] at h
      exact absurd h (by simp)
  · rw [List.getD_eq_default] at h
    · exact absurd h (by simp)
    · rw [length_rollingMean]; omega

/-! ## Claim C1: bucket assignment of the value zero -/

/-- C1, counterexample: on the spec's own example series
`[3, 10, 45, 0, 7]`, the `pd.cut` classification does not produce the
bucket list the claim states, because the value `0` sits at the open
left edge of the first interval `(0, 7]` and receives no bucket. -/
theorem shipping_example_cex :
    shippingIntervals [3, 10, 45, 0, 7] ≠
      [some "Within 7 days", some "Within 30 days", some "After 30 days",
       some "Within 7 days", some "Within 7 days"] := by decide

/-- C1, amended: a value at or below the lowest edge — in particular the
value zero — falls in no bucket (the null category); the example series
`[3, 10, 45, 0, 7]` maps to
`[Within 7 days, Within 30 days, After 30 days, null, Within 7 days]`. -/
theorem shipping_example_amended :
    shippingIntervals [3, 10, 45, 0, 7] =
      [some "Within 7 days", some "Within 30 days", some "After 30 days",
       none, some "Within 7 days"] ∧
    ∀ d : ℚ, d ≤ 0 → shippingInterval d = none := by
  refine ⟨by decide, ?_⟩
  intro d hd
  have h1 : ¬(0 < d) := not_lt.mpr hd
  have h2 : ¬(7 < d) := by intro h; exact h1 (by linarith)
  have h3 : ¬(30 < d) := by intro h; exact h1 (by linarith)
  simp [shippingInterval, h1, h2, h3]

/-- Witness for C1: the amended statement instantiated at the input 0. -/
theorem shipping_example_amended_w : shippingInterval 0 = none :=
  shipping_example_amended.2 0 (le_refl 0)

/-! ## Claim C7: bucket classification partitions the positive range -/

/-- C7, counterexample: the finite non-negative input `0` falls in no
bucket, so the classifier does not cover the full non-negative range. -/
theorem bucket_partition_cex : (shippingInterval 0).isSome = false := by decide

/-- C7, amended: every finite strictly positive value receives exactly
one bucket; the boundary value `0` (and any negative value) receives
none. -/
theorem bucket_partition_amended (d : ℚ) (hd : 0 < d) :
    ∃! lbl, shippingInterval d = some lbl := by
  have hex : ∃ lbl, shippingInterval d = some lbl := by
    rcases le_or_lt d 7 with h7 | h7
    · exact ⟨"Within 7 days", by simp [shippingInterval, hd, h7]⟩
    · have hn7 : ¬(0 < d ∧ d ≤ 7) := by rintro ⟨_, h⟩; exact absurd h7 (not_lt.mpr h)
      rcases le_or_lt d 30 with h30 | h30
      · exact ⟨"Within 30 days", by simp [shippingInterval, hn7, h7, h30]⟩
      · have hn30 : ¬(7 < d ∧ d ≤ 30) := by
          rintro ⟨_, h⟩; exact absurd h30 (not_lt.mpr h)
        exact ⟨"After 30 days", by simp [shippingInterval, hn7, hn30, h30]⟩
  rcases hex with ⟨lbl, h⟩
  refine ⟨lbl, h, ?_⟩
  intro y hy
  rw [hy] at h
  exact Option.some_injective _ h

/-- Witness for C7: the value 3 has exactly one bucket. -/
theorem bucket_partition_amended_w : ∃! lbl, shippingInterval 3 = some lbl :=
  bucket_partition_amended 3 (by norm_num)

/-! ## Claim C4: percentage change -/

/-- C4, counterexample: with previous value exactly `0` and current value
`5`, the daily return is `+inf`, not the non-numeric NaN sentinel the
claim requires. -/
theorem pct_change_cex :
    (pctChangeList [0, 5]).getD 1 PVal.nan = PVal.inf ∧
      (pctChangeList [0, 5]).getD 1 PVal.nan ≠ PVal.nan := by decide

/-- C4, amended: the percentage change is `(cur - prev) / prev * 100`
whenever the previous value is nonzero (hence exactly 0 for equal nonzero
consecutive values), is NaN at the first row of a subject, and when the
previous value is exactly zero it is NaN only if the current value is
also zero, otherwise a signed infinity. -/
theorem pct_change_amended (xs : List ℚ) (i : ℕ) (hi : i < xs.length) :
    (pctChangeList xs).getD 0 PVal.nan = PVal.nan ∧
    (∀ j, i = j + 1 →
      (pctChangeList xs).getD i PVal.nan =
        (if xs.getD j 0 = 0 then
           (if 0 < xs.getD i 0 then PVal.inf
            else if xs.getD i 0 < 0 then PVal.neginf else PVal.nan)
         else PVal.num ((xs.getD i 0 - xs.getD j 0) / xs.getD j 0 * 100))) ∧
    (∀ j, i = j + 1 → xs.getD j 0 = xs.getD i 0 → xs.getD i 0 ≠ 0 →
      (pctChangeList xs).getD i PVal.nan = PVal.num 0) := by
  have hfirst : (pctChangeList xs).getD 0 PVal.nan = PVal.nan := by
    have h0 : 0 < xs.length := Nat.lt_of_le_of_lt (Nat.zero_le i) hi
    exact getD_range_map xs.length 0 _ PVal.nan h0
  have hmain : ∀ j, i = j + 1 →
      (pctChangeList xs).getD i PVal.nan =
        (if xs.getD j 0 = 0 then
           (if 0 < xs.getD i 0 then PVal.inf
            else if xs.getD i 0 < 0 then PVal.neginf else PVal.nan)
         else PVal.num ((xs.getD i 0 - xs.getD j 0) / xs.getD j 0 * 100)) := by
    intro j hj
    subst hj
    rw [getD_pctChangeList xs j hi]
    set prev := xs.getD j 0 with hprev
    set cur := xs.getD (j + 1) 0 with hcur
    by_cases hp : prev = 0
    · rw [if_pos hp]
      rw [ratDivF, if_pos hp]
      by_cases hc : 0 < cur
      · simp [hc, PVal.subF, PVal.mulF]
      · by_cases hc' : cur < 0
        · simp [hc, hc', PVal.subF, PVal.mulF]
        · simp [hc, hc', PVal.subF, PVal.mulF]
    · rw [if_neg hp]
      rw [ratDivF, if_neg hp]
      simp only [PVal.subF, PVal.mulF, PVal.num.injEq]
      field_simp
  refine ⟨hfirst, hmain, ?_⟩
  intro j hj heq hne
  rw [hmain j hj]
  have hp : xs.getD j 0 ≠ 0 := by rw [heq]; exact hne
  rw [if_neg hp, heq]
  simp

/-- Witness for C4: equal nonzero consecutive values give exactly 0, and
the first row is NaN. -/
theorem pct_change_amended_w :
    (pctChangeList [5, 5]).getD 0 PVal.nan = PVal.nan ∧
      (pctChangeList [5, 5]).getD 1 PVal.nan = PVal.num 0 :=
  ⟨(pct_change_amended [5, 5] 1 (by decide)).1,
   (pct_change_amended [5, 5] 1 (by decide)).2.2 0 rfl (by decide) (by decide)⟩

/-! ## Claim C8: moving average of a constant series -/

/-- C8: over a constant series, the `N`-row moving average equals the
constant at every position where it is defined. -/
theorem ma_constant (N m i : ℕ) (c : ℚ) (hN : 1 ≤ N) (hi : i < m)
    (hdef : N - 1 ≤ i) :
    (rollingMean N (List.replicate m c)).getD i none = some c := by
  have hlen : i < (List.replicate m c).length := by simpa using hi
  rw [getD_rollingMean N _ i hlen]
  have hle : N ≤ i + 1 := by omega
  rw [if_pos hle]
  have hslice : windowSlice N i (List.replicate m c) = List.replicate N c := by
    rw [windowSlice, List.take_replicate, List.drop_replicate]
    congr 1
    omega
  rw [hslice, List.sum_replicate, nsmul_eq_mul,
    mul_div_cancel_left₀ c (by exact_mod_cast (by omega : N ≠ 0))]

/-- Witness for C8: 2-row moving average of the constant series
`[5, 5, 5]` at its second row. -/
theorem ma_constant_w :
    (rollingMean 2 (List.replicate 3 (5 : ℚ))).getD 1 none = some 5 :=
  ma_constant 2 3 1 5 (by decide) (by decide) (by decide)

/-! ## Claim C2: where the window-based series are defined -/

/-- C2, counterexample: over the valid numeric input consisting of 14
equal prices, the RSI at the 14th row (0-based index 13) is NaN — the
0/0 of a zero average gain and a zero average loss — although the claim
requires every row from position 14 on to be defined. -/
theorem window_defined_cex :
    (rsiList (List.replicate 14 (5 : ℚ))).getD 13 PVal.nan = PVal.nan := by
  norm_num [rsiList, avgGain, avgLoss, rollingMean, gains, losses, diffs,
    windowSlice, optDivF, ratDivF, rsiOf, List.range_succ, List.replicate_succ]

/-- C2, amended: the `N`-row moving average is undefined at exactly the
first `N - 1` rows and defined thereafter; the 14-period RSI is undefined
at the first 13 rows and, beyond them, is defined exactly when the
14-period average gain and average loss are not both zero. -/
theorem window_defined_amended (N : ℕ) (hN : 1 ≤ N) (xs : List ℚ) (i : ℕ)
    (hi : i < xs.length) :
    (((rollingMean N xs).getD i none).isSome = true ↔ N - 1 ≤ i) ∧
    (((rsiList xs).getD i PVal.nan).isNum = true ↔
      (13 ≤ i ∧
        ¬((avgGain xs).getD i none = some 0 ∧
          (avgLoss xs).getD i none = some 0))) := by
  constructor
  · rw [getD_rollingMean N xs i hi]
    by_cases h : N ≤ i + 1
    · rw [if_pos h]
      exact iff_of_true rfl (by omega)
    · rw [if_neg h]
      exact iff_of_false (by simp) (by omega)
  · rw [getD_rsiList xs i hi]
    have higain : i < (gains xs).length := by rw [length_gains]; exact hi
    have hiloss : i < (losses xs).length := by rw [length_losses]; exact hi
    rw [avgGain, avgLoss, getD_rollingMean 14 _ i higain,
      getD_rollingMean 14 _ i hiloss]
    by_cases h13 : 14 ≤ i + 1
    · rw [if_pos h13, if_pos h13]
      have hgnn : 0 ≤ (windowSlice 14 i (gains xs)).sum / ((14 : ℕ) : ℚ) :=
        div_nonneg (List.sum_nonneg
          (fun y hy => gains_nonneg xs y (windowSlice_mem 14 i _ y hy))) (by norm_num)
      have hlnn : 0 ≤ (windowSlice 14 i (losses xs)).sum / ((14 : ℕ) : ℚ) :=
        div_nonneg (List.sum_nonneg
          (fun y hy => losses_nonneg xs y (windowSlice_mem 14 i _ y hy))) (by norm_num)
      set g := (windowSlice 14 i (gains xs)).sum / ((14 : ℕ) : ℚ) with hgdef
      set l := (windowSlice 14 i (losses xs)).sum / ((14 : ℕ) : ℚ) with hldef
      have h13' : 13 ≤ i := by omega
      by_cases hl0 : l = 0
      · by_cases hg0 : g = 0
        · rw [hl0, hg0]
          simp [optDivF, ratDivF, rsiOf, PVal.isNum]
        · have hgpos : 0 < g := lt_of_le_of_ne hgnn (Ne.symm hg0)
          rw [hl0]
          simp [optDivF, ratDivF, rsiOf, PVal.isNum, hgpos, hg0, h13']
      · have hlpos : 0 < l := lt_of_le_of_ne hlnn (Ne.symm hl0)
        have h1 : (0 : ℚ) < 1 + g / l := by
          have := div_nonneg hgnn hlnn
          linarith
        simp [optDivF, ratDivF, rsiOf, PVal.isNum, hl0, h1.ne', h13']
    · rw [if_neg h13, if_neg h13]
      have : ¬(13 ≤ i) := by omega
      simp [optDivF, rsiOf, PVal.isNum, this]

/-- Witness for C2 (amended): a 20-row constant series at its 20th row;
the MA20 is defined there and the RSI is not (both rolling averages are
zero). -/
theorem window_defined_amended_w :
    (((rollingMean 20 (List.replicate 20 (5 : ℚ))).getD 19 none).isSome = true ↔
      20 - 1 ≤ 19) ∧
    (((rsiList (List.replicate 20 (5 : ℚ))).getD 19 PVal.nan).isNum = true ↔
      (13 ≤ 19 ∧
        ¬((avgGain (List.replicate 20 (5 : ℚ))).getD 19 none = some 0 ∧
          (avgLoss (List.replicate 20 (5 : ℚ))).getD 19 none = some 0))) :=
  window_defined_amended 20 (by decide) (List.replicate 20 (5 : ℚ)) 19 (by simp)

/-! ## Claim C3: RSI value when the average loss is zero -/

/-- C3: where the 14-period average loss is zero and the RSI is defined,
the RSI equals exactly 100; where the average loss is a nonzero value
`l` and the average gain is `g`, the RSI equals
`100 - 100 / (1 + g / l)`. -/
theorem rsi_avg_loss_zero (xs : List ℚ) (i : ℕ) (hi : i < xs.length) :
    ((avgLoss xs).getD i none = some 0 →
      ((rsiList xs).getD i PVal.nan).isNum = true →
      (rsiList xs).getD i PVal.nan = PVal.num 100) ∧
    (∀ g l, (avgGain xs).getD i none = some g →
      (avgLoss xs).getD i none = some l → l ≠ 0 →
      (rsiList xs).getD i PVal.nan = PVal.num (100 - 100 / (1 + g / l))) := by
  have higain : i < (gains xs).length := by rw [length_gains]; exact hi
  constructor
  · intro hL hnum
    rw [getD_rsiList xs i hi] at hnum ⊢
    have hA := getD_rollingMean 14 (gains xs) i higain
    by_cases h13 : 14 ≤ i + 1
    · rw [if_pos h13] at hA
      rw [show (avgGain xs).getD i none =
            some ((windowSlice 14 i (gains xs)).sum / ((14 : ℕ) : ℚ)) from hA, hL]
      set g := (windowSlice 14 i (gains xs)).sum / ((14 : ℕ) : ℚ) with hgdef
      have hgnn : 0 ≤ g :=
        div_nonneg (List.sum_nonneg
          (fun y hy => gains_nonneg xs y (windowSlice_mem 14 i _ y hy))) (by norm_num)
      by_cases hg0 : g = 0
      · rw [show (avgGain xs).getD i none = some g from hA, hL] at hnum
        rw [hg0] at hnum
        simp [optDivF, ratDivF, rsiOf, PVal.isNum] at hnum
      · have hgpos : 0 < g := lt_of_le_of_ne hgnn (Ne.symm hg0)
        simp [optDivF, ratDivF, rsiOf, hgpos, hg0]
    · have hLnone := getD_rollingMean 14 (losses xs) i
        (by rw [length_losses]; exact hi)
      rw [if_neg h13] at hLnone
      rw [show (avgLoss xs).getD i none = none from hLnone] at hL
      exact absurd hL (by simp)
  · intro g l hg hl hlne
    rw [getD_rsiList xs i hi, hg, hl]
    have hgnn : 0 ≤ g := rollingMean_nonneg 14 (gains xs) i g (gains_nonneg xs) hg
    have hlnn : 0 ≤ l := rollingMean_nonneg 14 (losses xs) i l (losses_nonneg xs) hl
    have h1 : (0 : ℚ) < 1 + g / l := by
      have := div_nonneg hgnn hlnn
      linarith
    simp [optDivF, ratDivF, rsiOf, hlne, h1.ne']

/-- Witness for C3: a strictly rising 14-row price series; at row 14 the
average loss is zero, the RSI is defined, and it equals 100. -/
theorem rsi_avg_loss_zero_w :
    (rsiList [(0 : ℚ), 1, 2, 3, 4, 5, 6, 7, 8, 9, 10, 11, 12, 13]).getD 13
      PVal.nan = PVal.num 100 :=
  (rsi_avg_loss_zero [(0 : ℚ), 1, 2, 3, 4, 5, 6, 7, 8, 9, 10, 11, 12, 13] 13
      (by norm_num)).1
    (by norm_num [avgLoss, rollingMean, losses, diffs, windowSlice,
      List.range_succ])
    (by norm_num [rsiList, avgGain, avgLoss, rollingMean, gains, losses, diffs,
      windowSlice, optDivF, ratDivF, rsiOf, PVal.isNum, List.range_succ])

/-! ## Campaign lift: helper lemmas -/

theorem mem_campaignKeys (rows : List (String × ℚ)) (k : String) :
    k ∈ campaignKeys rows ↔ k ∈ rows.map Prod.fst := by
  rw [campaignKeys, mem_sortLe, List.mem_dedup]

theorem mem_campaignSales (rows : List (String × ℚ)) (a : CampaignAgg) :
    a ∈ campaignSales rows ↔
      ∃ k, k ∈ campaignKeys rows ∧
        a = ⟨k, groupTotal k rows, groupAvg k rows, groupCount k rows⟩ := by
  rw [campaignSales, mem_sortLe, List.mem_map]
  constructor
  · rintro ⟨k, hk, rfl⟩
    exact ⟨k, hk, rfl⟩
  · rintro ⟨k, hk, rfl⟩
    exact ⟨k, hk, rfl⟩

theorem liftVal_eq (avg b : ℚ) (hb : b ≠ 0) :
    liftVal avg b = PVal.num (round2 ((avg - b) / b * 100)) := by
  simp [liftVal, ratDivF, hb, PVal.mulF, PVal.round2F]

theorem liftVal_self (b : ℚ) (hb : b ≠ 0) : liftVal b b = PVal.num 0 := by
  rw [liftVal_eq b b hb]
  norm_num [round2, roundHalfEven]

/-! ## Claim C5: lift values when the baseline is present -/

/-- C5, counterexample: with baseline mean 3 and a campaign mean 1, the
stored lift is the two-decimal rounding `-66.67`, which differs from the
exact value `(1 - 3) / 3 * 100 = -200/3` the claim asserts. -/
theorem lift_formula_cex :
    groupAvg "A" [("No Campaign", (3 : ℚ)), ("A", 1)] = 1 ∧
    groupAvg "No Campaign" [("No Campaign", (3 : ℚ)), ("A", 1)] = 3 ∧
    liftColumn [("No Campaign", (3 : ℚ)), ("A", 1)] =
      some [("No Campaign", PVal.num 0), ("A", PVal.num (-6667 / 100))] ∧
    ((-6667 : ℚ) / 100) ≠ ((1 : ℚ) - 3) / 3 * 100 := by
  have hA : ("A" == "No Campaign") = false := by decide
  have hN : ("No Campaign" == "A") = false := by decide
  have hAA : ("A" == "A") = true := by decide
  have hNN : ("No Campaign" == "No Campaign") = true := by decide
  have htA : groupTotal "A" [("No Campaign", (3 : ℚ)), ("A", 1)] = 1 := by
    norm_num [groupTotal, List.filter, hN, hAA]
  have htN : groupTotal "No Campaign" [("No Campaign", (3 : ℚ)), ("A", 1)] = 3 := by
    norm_num [groupTotal, List.filter, hA, hNN]
  have hcA : groupCount "A" [("No Campaign", (3 : ℚ)), ("A", 1)] = 1 := by decide
  have hcN : groupCount "No Campaign" [("No Campaign", (3 : ℚ)), ("A", 1)] = 1 := by
    decide
  have haA : groupAvg "A" [("No Campaign", (3 : ℚ)), ("A", 1)] = 1 := by
    rw [groupAvg, htA, hcA]; norm_num
  have haN : groupAvg "No Campaign" [("No Campaign", (3 : ℚ)), ("A", 1)] = 3 := by
    rw [groupAvg, htN, hcN]; norm_num
  have hkeys : campaignKeys [("No Campaign", (3 : ℚ)), ("A", 1)] =
      ["A", "No Campaign"] := by decide
  have hsales : campaignSales [("No Campaign", (3 : ℚ)), ("A", 1)] =
      [⟨"No Campaign", 3, 3, 1⟩, ⟨"A", 1, 1, 1⟩] := by
    rw [campaignSales, hkeys]
    simp only [List.map_cons, List.map_nil, haA, haN, htA, htN, hcA, hcN,
      sortLe, insertLe]
    norm_num
  have hround : round2 ((1 - 3) / 3 * 100 : ℚ) = -6667 / 100 := by
    rw [round2]
    have harg : ((1 - 3) / 3 * 100 : ℚ) * 100 = -20000 / 3 := by norm_num
    rw [harg]
    have hf : ⌊(-20000 : ℚ) / 3⌋ = -6667 := by
      rw [Int.floor_eq_iff]
      norm_num
    rw [roundHalfEven, hf]
    norm_num
  refine ⟨haA, haN, ?_, by norm_num⟩
  rw [liftColumn, if_pos (by rw [hkeys]; decide), hsales, haN]
  simp only [List.map_cons, List.map_nil]
  rw [liftVal_self 3 (by norm_num), liftVal_eq 1 3 (by norm_num), hround]

/-- C5, amended: when the `'No Campaign'` baseline is present and its
mean is nonzero, every category's stored lift equals the percentage-lift
formula rounded to two decimal places (half to even), and the baseline
category's own lift is exactly 0. -/
theorem lift_formula_amended (rows : List (String × ℚ))
    (hb : "No Campaign" ∈ campaignKeys rows)
    (hnz : groupAvg "No Campaign" rows ≠ 0) :
    ∃ L, liftColumn rows = some L ∧
      (∀ p ∈ L, p.2 = PVal.num (round2
        ((groupAvg p.1 rows - groupAvg "No Campaign" rows) /
          groupAvg "No Campaign" rows * 100))) ∧
      ("No Campaign", PVal.num 0) ∈ L := by
  refine ⟨(campaignSales rows).map (fun a =>
      (a.key, liftVal a.avg (groupAvg "No Campaign" rows))), ?_, ?_, ?_⟩
  · rw [liftColumn, if_pos hb]
  · intro p hp
    rcases List.mem_map.mp hp with ⟨a, ha, rfl⟩
    rcases (mem_campaignSales rows a).mp ha with ⟨k, _, rfl⟩
    exact liftVal_eq _ _ hnz
  · refine List.mem_map.mpr ⟨⟨"No Campaign", groupTotal "No Campaign" rows,
      groupAvg "No Campaign" rows, groupCount "No Campaign" rows⟩, ?_, ?_⟩
    · exact (mem_campaignSales rows _).mpr ⟨"No Campaign", hb, rfl⟩
    · rw [liftVal_self _ hnz]

/-- Witness for C5 (amended): the two-campaign table with baseline mean
3. -/
theorem lift_formula_amended_w :
    ∃ L, liftColumn [("No Campaign", (3 : ℚ)), ("A", 1)] = some L ∧
      (∀ p ∈ L, p.2 = PVal.num (round2
        ((groupAvg p.1 [("No Campaign", (3 : ℚ)), ("A", 1)] -
            groupAvg "No Campaign" [("No Campaign", (3 : ℚ)), ("A", 1)]) /
          groupAvg "No Campaign" [("No Campaign", (3 : ℚ)), ("A", 1)] * 100))) ∧
      ("No Campaign", PVal.num 0) ∈ L :=
  lift_formula_amended [("No Campaign", (3 : ℚ)), ("A", 1)] (by decide)
    (by norm_num [groupAvg, groupTotal, groupCount, List.filter,
      show ("A" == "No Campaign") = false from by decide,
      show ("No Campaign" == "No Campaign") = true from by decide])

/-! ## Claim C6: behaviour when the baseline is absent -/

/-- C6: when `'No Campaign'` is absent from the grouped keys, no lift
column is produced, no error is raised (the embedding is total), and the
per-category sum/mean/count aggregate is returned unchanged, with exactly
the input's campaign ids as its keys. -/
theorem lift_baseline_absent (rows : List (String × ℚ))
    (hb : "No Campaign" ∉ campaignKeys rows) :
    marketing_campaign_impact rows = (campaignSales rows, none) ∧
    (∀ k, (∃ a ∈ campaignSales rows, a.key = k) ↔ k ∈ rows.map Prod.fst) ∧
    (∀ a ∈ campaignSales rows,
      a.total = groupTotal a.key rows ∧ a.avg = groupAvg a.key rows ∧
        a.cnt = groupCount a.key rows) := by
  refine ⟨?_, ?_, ?_⟩
  · rw [marketing_campaign_impact, liftColumn, if_neg hb]
  · intro k
    constructor
    · rintro ⟨a, ha, rfl⟩
      rcases (mem_campaignSales rows a).mp ha with ⟨k', hk', rfl⟩
      exact (mem_campaignKeys rows k').mp hk'
    · intro hk
      refine ⟨⟨k, groupTotal k rows, groupAvg k rows, groupCount k rows⟩, ?_, rfl⟩
      exact (mem_campaignSales rows _).mpr ⟨k, (mem_campaignKeys rows k).mpr hk, rfl⟩
  · intro a ha
    rcases (mem_campaignSales rows a).mp ha with ⟨k, _, rfl⟩
    exact ⟨rfl, rfl, rfl⟩

/-- Witness for C6: a table whose campaigns are `A` and `B` only. -/
theorem lift_baseline_absent_w :
    marketing_campaign_impact [("A", (1 : ℚ)), ("B", 2)] =
        (campaignSales [("A", (1 : ℚ)), ("B", 2)], none) ∧
    (∀ k, (∃ a ∈ campaignSales [("A", (1 : ℚ)), ("B", 2)], a.key = k) ↔
        k ∈ [("A", (1 : ℚ)), ("B", 2)].map Prod.fst) ∧
    (∀ a ∈ campaignSales [("A", (1 : ℚ)), ("B", 2)],
      a.total = groupTotal a.key [("A", (1 : ℚ)), ("B", 2)] ∧
        a.avg = groupAvg a.key [("A", (1 : ℚ)), ("B", 2)] ∧
        a.cnt = groupCount a.key [("A", (1 : ℚ)), ("B", 2)]) :=
  lift_baseline_absent [("A", (1 : ℚ)), ("B", 2)] (by decide)

/-! ## Claim C9: per-subject independence of the derived series -/

theorem concatMap_congr (f g : α → List β) (l : List α)
    (h : ∀ a ∈ l, f a = g a) : concatMap f l = concatMap g l := by
  induction l with
  | nil => rfl
  | cons a as ih =>
    rw [concatMap, concatMap, h a (List.mem_cons_self a as),
      ih (fun x hx => h x (List.mem_cons_of_mem a hx))]

theorem filter_concatMap (p : β → Bool) (f : α → List β) (l : List α) :
    (concatMap f l).filter p = concatMap (fun a => (f a).filter p) l := by
  induction l with
  | nil => rfl
  | cons a as ih => simp only [concatMap, List.filter_append, ih]

theorem concatMap_ite_nil {α β : Type} [DecidableEq α] (ks : List α) (t : α)
    (G : List β) (hnt : t ∉ ks) :
    concatMap (fun u => if u = t then G else []) ks = [] := by
  induction ks with
  | nil => rfl
  | cons a as ih =>
    rw [concatMap,
      if_neg (fun he : a = t => hnt (by rw [← he]; exact List.mem_cons_self a as)),
      List.nil_append, ih (fun hm => hnt (List.mem_cons_of_mem a hm))]

theorem concatMap_ite {α β : Type} [DecidableEq α] (ks : List α) (t : α)
    (G : List β) (hnd : ks.Nodup) :
    concatMap (fun u => if u = t then G else []) ks =
      if t ∈ ks then G else [] := by
  induction ks with
  | nil => simp [concatMap]
  | cons a as ih =>
    rcases List.nodup_cons.mp hnd with ⟨ha, has⟩
    by_cases hat : a = t
    · subst hat
      rw [concatMap, if_pos rfl, if_pos (List.mem_cons_self a as),
        concatMap_ite_nil as a G ha, List.append_nil]
    · rw [concatMap, if_neg hat, List.nil_append, ih has]
      by_cases hm : t ∈ as
      · rw [if_pos hm, if_pos (List.mem_cons_of_mem a hm)]
      · rw [if_neg hm, if_neg (fun hc => by
          rcases List.mem_cons.mp hc with he | he
          · exact hat he.symm
          · exact hm he)]

theorem mem_tickers (l : List Row) (t : String) :
    t ∈ tickers l ↔ t ∈ l.map Row.ticker := by
  rw [tickers, mem_sortLe, List.mem_dedup]

theorem nodup_tickers (l : List Row) : (tickers l).Nodup :=
  nodup_sortLe _ _ (List.nodup_dedup _)

theorem rowsOf_ticker (t : String) (l : List Row) :
    ∀ r ∈ rowsOf t l, r.ticker = t := by
  intro r hr
  have := List.of_mem_filter hr
  exact eq_of_beq this

theorem sortDate_mem (g : List Row) (r : Row) : r ∈ sortDate g ↔ r ∈ g :=
  mem_sortLe _ r g

theorem calcGroup_ticker (g : List Row) (r' : MetricRow)
    (h : r' ∈ calcGroup g) : ∃ r ∈ g, r'.ticker = r.ticker := by
  simp only [calcGroup, List.mem_map, List.mem_range] at h
  rcases h with ⟨i, hi, rfl⟩
  refine ⟨g.getD i ⟨"", 0, 0⟩, ?_, rfl⟩
  rw [List.getD_eq_getElem _ _ hi]
  exact List.getElem_mem hi

theorem filter_calculate_metrics (l : List Row) (t : String) :
    (calculate_metrics l).filter (fun r => r.ticker == t)
      = calcGroup (sortDate (rowsOf t l)) := by
  rw [calculate_metrics, filter_concatMap]
  rw [concatMap_congr _ (fun u => if u = t then calcGroup (sortDate (rowsOf t l))
      else []) _ ?_]
  · rw [concatMap_ite _ t _ (nodup_tickers l)]
    by_cases hm : t ∈ tickers l
    · rw [if_pos hm]
    · rw [if_neg hm]
      have hempty : rowsOf t l = [] := by
        rw [rowsOf, List.filter_eq_nil_iff]
        intro r hr hbeq
        exact hm ((mem_tickers l t).mpr
          (List.mem_map.mpr ⟨r, hr, eq_of_beq hbeq⟩))
      rw [hempty]
      rfl
  · intro u _
    show List.filter (fun r => r.ticker == t) (calcGroup (sortDate (rowsOf u l)))
      = if u = t then calcGroup (sortDate (rowsOf t l)) else []
    by_cases hut : u = t
    · subst hut
      rw [if_pos rfl]
      apply List.filter_eq_self.mpr
      intro r hr
      rcases calcGroup_ticker _ r hr with ⟨r0, hr0, heq⟩
      rw [heq, rowsOf_ticker u l r0 ((sortDate_mem _ r0).mp hr0)]
      exact beq_self_eq_true u
    · rw [if_neg hut]
      rw [List.filter_eq_nil_iff]
      intro r hr hbeq
      rcases calcGroup_ticker _ r hr with ⟨r0, hr0, heq⟩
      have h0 := rowsOf_ticker u l r0 ((sortDate_mem _ r0).mp hr0)
      rw [heq, h0] at hbeq
      exact hut (eq_of_beq hbeq)

/-- C9: the output rows of a given ticker depend only on that ticker's
input rows — two tables agreeing on the rows of subject `t` produce
identical derived series for `t`, whatever the other subjects' rows. -/
theorem subject_independence (t : String) (l1 l2 : List Row)
    (h : rowsOf t l1 = rowsOf t l2) :
    (calculate_metrics l1).filter (fun r => r.ticker == t)
      = (calculate_metrics l2).filter (fun r => r.ticker == t) := by
  rw [filter_calculate_metrics, filter_calculate_metrics, h]

/-- Witness for C9: adding a `B` row leaves the `A` output unchanged. -/
theorem subject_independence_w :
    (calculate_metrics [⟨"A", 0, 1⟩]).filter (fun r => r.ticker == "A")
      = (calculate_metrics [⟨"A", 0, 1⟩, ⟨"B", 0, 2⟩]).filter
          (fun r => r.ticker == "A") :=
  subject_independence "A" [⟨"A", 0, 1⟩] [⟨"A", 0, 1⟩, ⟨"B", 0, 2⟩] (by decide)

/-! ## Claim C10: IQR outlier capping -/

theorem pairwise_getD_mono {α : Type} [LinearOrder α] (s : List α) (d : α)
    (hs : List.Pairwise (· ≤ ·) s) (i j : ℕ) (hij : i ≤ j) (hj : j < s.length) :
    s.getD i d ≤ s.getD j d := by
  rcases Nat.eq_or_lt_of_le hij with rfl | hlt
  · exact le_refl _
  · have hi : i < s.length := lt_trans hlt hj
    rw [List.getD_eq_getElem _ _ hi, List.getD_eq_getElem _ _ hj]
    exact List.pairwise_iff_getElem.mp hs i j hi hj hlt

theorem floor_toNat_le_ceil_toNat (h : ℚ) (h0 : 0 ≤ h) :
    Int.toNat ⌊h⌋ ≤ Int.toNat ⌈h⌉ := by
  have h1 : ⌊h⌋ ≤ ⌈h⌉ := Int.floor_le_ceil h
  have h2 : 0 ≤ ⌊h⌋ := Int.le_floor.mpr (by exact_mod_cast h0)
  omega

theorem ceil_toNat_lt (h : ℚ) (N : ℕ) (htop : h ≤ (N : ℚ) - 1) (hN : 1 ≤ N) :
    Int.toNat ⌈h⌉ < N := by
  have hc : ⌈h⌉ ≤ (N : ℤ) - 1 := Int.ceil_le.mpr (by push_cast; exact htop)
  omega

theorem floor_toNat_lt (h : ℚ) (N : ℕ) (htop : h ≤ (N : ℚ) - 1) (hN : 1 ≤ N) :
    Int.toNat ⌊h⌋ < N := by
  have he : ((N : ℚ) - 1) = (((N : ℤ) - 1 : ℤ) : ℚ) := by push_cast; ring
  have hc : ⌊h⌋ ≤ (N : ℤ) - 1 := by
    have hm := Int.floor_mono htop
    rw [he, Int.floor_intCast] at hm
    exact hm
  omega

theorem interpAt_ge_floor (s : List ℚ) (hs : List.Pairwise (· ≤ ·) s)
    (h : ℚ) (h0 : 0 ≤ h) (htop : h ≤ (s.length : ℚ) - 1) (hN : 1 ≤ s.length) :
    s.getD (Int.toNat ⌊h⌋) 0 ≤ interpAt s h := by
  simp only [interpAt]
  have hf : 0 ≤ h - (⌊h⌋ : ℚ) := sub_nonneg.mpr (Int.floor_le h)
  have hAC : s.getD (Int.toNat ⌊h⌋) 0 ≤ s.getD (Int.toNat ⌈h⌉) 0 :=
    pairwise_getD_mono s 0 hs _ _ (floor_toNat_le_ceil_toNat h h0)
      (ceil_toNat_lt h _ htop hN)
  nlinarith [mul_nonneg hf (sub_nonneg.mpr hAC)]

theorem interpAt_le_ceil (s : List ℚ) (hs : List.Pairwise (· ≤ ·) s)
    (h : ℚ) (h0 : 0 ≤ h) (htop : h ≤ (s.length : ℚ) - 1) (hN : 1 ≤ s.length) :
    interpAt s h ≤ s.getD (Int.toNat ⌈h⌉) 0 := by
  simp only [interpAt]
  have hf : 0 ≤ h - (⌊h⌋ : ℚ) := sub_nonneg.mpr (Int.floor_le h)
  have hf1 : h - (⌊h⌋ : ℚ) ≤ 1 := by
    have := Int.lt_floor_add_one h
    linarith
  have hAC : s.getD (Int.toNat ⌊h⌋) 0 ≤ s.getD (Int.toNat ⌈h⌉) 0 :=
    pairwise_getD_mono s 0 hs _ _ (floor_toNat_le_ceil_toNat h h0)
      (ceil_toNat_lt h _ htop hN)
  nlinarith [mul_nonneg (by linarith : (0 : ℚ) ≤ 1 - (h - (⌊h⌋ : ℚ)))
    (sub_nonneg.mpr hAC)]

theorem interpAt_mono (s : List ℚ) (hs : List.Pairwise (· ≤ ·) s)
    (hN : 1 ≤ s.length) (h1 h2 : ℚ) (h10 : 0 ≤ h1) (h12 : h1 ≤ h2)
    (h2top : h2 ≤ (s.length : ℚ) - 1) :
    interpAt s h1 ≤ interpAt s h2 := by
  have h20 : 0 ≤ h2 := le_trans h10 h12
  have h1top : h1 ≤ (s.length : ℚ) - 1 := le_trans h12 h2top
  by_cases hfl : ⌊h1⌋ = ⌊h2⌋
  · simp only [interpAt, hfl]
    have hf1 : 0 ≤ h1 - (⌊h2⌋ : ℚ) := by
      rw [← hfl]
      exact sub_nonneg.mpr (Int.floor_le h1)
    have hf12 : h1 - (⌊h2⌋ : ℚ) ≤ h2 - (⌊h2⌋ : ℚ) := by linarith
    have hC12 : s.getD (Int.toNat ⌈h1⌉) 0 ≤ s.getD (Int.toNat ⌈h2⌉) 0 := by
      apply pairwise_getD_mono s 0 hs
      · have := Int.ceil_mono h12
        omega
      · exact ceil_toNat_lt h2 _ h2top hN
    have hAC2 : s.getD (Int.toNat ⌊h2⌋) 0 ≤ s.getD (Int.toNat ⌈h2⌉) 0 :=
      pairwise_getD_mono s 0 hs _ _ (floor_toNat_le_ceil_toNat h2 h20)
        (ceil_toNat_lt h2 _ h2top hN)
    have step1 : (h1 - (⌊h2⌋ : ℚ)) *
        (s.getD (Int.toNat ⌈h1⌉) 0 - s.getD (Int.toNat ⌊h2⌋) 0) ≤
          (h1 - (⌊h2⌋ : ℚ)) *
        (s.getD (Int.toNat ⌈h2⌉) 0 - s.getD (Int.toNat ⌊h2⌋) 0) :=
      mul_le_mul_of_nonneg_left (by linarith) hf1
    have step2 : (h1 - (⌊h2⌋ : ℚ)) *
        (s.getD (Int.toNat ⌈h2⌉) 0 - s.getD (Int.toNat ⌊h2⌋) 0) ≤
          (h2 - (⌊h2⌋ : ℚ)) *
        (s.getD (Int.toNat ⌈h2⌉) 0 - s.getD (Int.toNat ⌊h2⌋) 0) :=
      mul_le_mul_of_nonneg_right hf12 (by linarith)
    linarith
  · have hlt : ⌊h1⌋ < ⌊h2⌋ := lt_of_le_of_ne (Int.floor_mono h12) hfl
    have hub : interpAt s h1 ≤ s.getD (Int.toNat ⌈h1⌉) 0 :=
      interpAt_le_ceil s hs h1 h10 h1top hN
    have hmid : s.getD (Int.toNat ⌈h1⌉) 0 ≤ s.getD (Int.toNat ⌊h2⌋) 0 := by
      apply pairwise_getD_mono s 0 hs
      · have hc : ⌈h1⌉ ≤ ⌊h1⌋ + 1 := Int.ceil_le_floor_add_one h1
        omega
      · exact floor_toNat_lt h2 _ h2top hN
    have hlb : s.getD (Int.toNat ⌊h2⌋) 0 ≤ interpAt s h2 :=
      interpAt_ge_floor s hs h2 h20 h2top hN
    linarith

theorem quantileLinear_mono (xs : List ℚ) (hne : xs ≠ []) (p q : ℚ)
    (hp0 : 0 ≤ p) (hpq : p ≤ q) (hq1 : q ≤ 1) :
    quantileLinear xs p ≤ quantileLinear xs q := by
  have hxs : 0 < xs.length := List.length_pos.mpr hne
  have hN : 1 ≤ (sortLe (fun a b => decide (a ≤ b)) xs).length := by
    rw [length_sortLe]
    omega
  have hn1 : (0 : ℚ) ≤ ((sortLe (fun a b => decide (a ≤ b)) xs).length : ℚ) - 1 := by
    have : (1 : ℚ) ≤ ((sortLe (fun a b => decide (a ≤ b)) xs).length : ℚ) := by
      exact_mod_cast hN
    linarith
  show interpAt (sortLe (fun a b => decide (a ≤ b)) xs)
      (p * (((sortLe (fun a b => decide (a ≤ b)) xs).length : ℚ) - 1)) ≤
    interpAt (sortLe (fun a b => decide (a ≤ b)) xs)
      (q * (((sortLe (fun a b => decide (a ≤ b)) xs).length : ℚ) - 1))
  refine interpAt_mono _ (pairwise_sortLe xs) hN _ _
    (mul_nonneg hp0 hn1) (mul_le_mul_of_nonneg_right hpq hn1) ?_
  calc q * (((sortLe (fun a b => decide (a ≤ b)) xs).length : ℚ) - 1) ≤
      1 * (((sortLe (fun a b => decide (a ≤ b)) xs).length : ℚ) - 1) :=
        mul_le_mul_of_nonneg_right hq1 hn1
    _ = ((sortLe (fun a b => decide (a ≤ b)) xs).length : ℚ) - 1 := one_mul _

theorem iqrBounds_le (xs : List ℚ) (hne : xs ≠ []) :
    (iqrBounds xs).1 ≤ (iqrBounds xs).2 := by
  have h := quantileLinear_mono xs hne (1 / 4) (3 / 4)
    (by norm_num) (by norm_num) (by norm_num)
  simp only [iqrBounds]
  linarith

theorem capColumn_spec (xs : List ℚ) (hne : xs ≠ []) :
    (capColumn xs).length = xs.length ∧
    (∀ y ∈ capColumn xs, (iqrBounds xs).1 ≤ y ∧ y ≤ (iqrBounds xs).2) ∧
    (∀ i, i < xs.length → (iqrBounds xs).1 ≤ xs.getD i 0 →
      xs.getD i 0 ≤ (iqrBounds xs).2 →
      (capColumn xs).getD i 0 = xs.getD i 0) := by
  have hlh := iqrBounds_le xs hne
  by_cases hc : xs.any (fun x =>
      decide (x < (iqrBounds xs).1) || decide ((iqrBounds xs).2 < x)) = true
  · have hcap : capColumn xs =
        xs.map (fun x => min (max x (iqrBounds xs).1) (iqrBounds xs).2) := by
      simp only [capColumn]
      rw [if_pos hc]
    refine ⟨by rw [hcap, List.length_map], ?_, ?_⟩
    · intro y hy
      rw [hcap] at hy
      rcases List.mem_map.mp hy with ⟨x, _, rfl⟩
      exact ⟨le_min (le_max_right x _) hlh, min_le_right _ _⟩
    · intro i hi hlo hhi
      have hmi : i < (xs.map (fun x =>
          min (max x (iqrBounds xs).1) (iqrBounds xs).2)).length := by
        rw [List.length_map]
        exact hi
      rw [hcap, List.getD_eq_getElem _ _ hmi, List.getElem_map,
        List.getD_eq_getElem _ _ hi]
      rw [List.getD_eq_getElem _ _ hi] at hlo hhi
      rw [max_eq_left hlo, min_eq_left hhi]
  · have hcap : capColumn xs = xs := by
      simp only [capColumn]
      rw [if_neg hc]
    refine ⟨by rw [hcap], ?_, ?_⟩
    · intro y hy
      rw [hcap] at hy
      constructor
      · by_contra hlt
        exact hc (List.any_eq_true.mpr ⟨y, hy, by simp [not_le.mp hlt]⟩)
      · by_contra hlt
        exact hc (List.any_eq_true.mpr ⟨y, hy, by simp [not_le.mp hlt]⟩)
    · intro i _ _ _
      rw [hcap]

/-- C10: after the outlier-capping step, every value of each treated
column lies inside its own pre-capping IQR fences
`[Q1 - 1.5*IQR, Q3 + 1.5*IQR]`, every value already inside the fences is
unchanged, and the column lengths (row count) are unchanged. -/
theorem outlier_capping (d : RetailCols) (h1 : d.price ≠ [])
    (h2 : d.quantity ≠ []) (h3 : d.sales ≠ []) :
    ((capOutliers d).price.length = d.price.length ∧
      (∀ y ∈ (capOutliers d).price,
        (iqrBounds d.price).1 ≤ y ∧ y ≤ (iqrBounds d.price).2) ∧
      (∀ i, i < d.price.length → (iqrBounds d.price).1 ≤ d.price.getD i 0 →
        d.price.getD i 0 ≤ (iqrBounds d.price).2 →
        (capOutliers d).price.getD i 0 = d.price.getD i 0)) ∧
    ((capOutliers d).quantity.length = d.quantity.length ∧
      (∀ y ∈ (capOutliers d).quantity,
        (iqrBounds d.quantity).1 ≤ y ∧ y ≤ (iqrBounds d.quantity).2) ∧
      (∀ i, i < d.quantity.length →
        (iqrBounds d.quantity).1 ≤ d.quantity.getD i 0 →
        d.quantity.getD i 0 ≤ (iqrBounds d.quantity).2 →
        (capOutliers d).quantity.getD i 0 = d.quantity.getD i 0)) ∧
    ((capOutliers d).sales.length = d.sales.length ∧
      (∀ y ∈ (capOutliers d).sales,
        (iqrBounds d.sales).1 ≤ y ∧ y ≤ (iqrBounds d.sales).2) ∧
      (∀ i, i < d.sales.length → (iqrBounds d.sales).1 ≤ d.sales.getD i 0 →
        d.sales.getD i 0 ≤ (iqrBounds d.sales).2 →
        (capOutliers d).sales.getD i 0 = d.sales.getD i 0)) :=
  ⟨capColumn_spec d.price h1, capColumn_spec d.quantity h2,
    capColumn_spec d.sales h3⟩

/-- Witness for C10: a four-row table with an outlying price. -/
theorem outlier_capping_w :
    ((capOutliers ⟨[1, 2, 3, 100], [1, 1, 1, 1], [1, 2, 3, 100]⟩).price.length =
        ([1, 2, 3, 100] : List ℚ).length ∧
      (∀ y ∈ (capOutliers ⟨[1, 2, 3, 100], [1, 1, 1, 1], [1, 2, 3, 100]⟩).price,
        (iqrBounds ([1, 2, 3, 100] : List ℚ)).1 ≤ y ∧
          y ≤ (iqrBounds ([1, 2, 3, 100] : List ℚ)).2) ∧
      (∀ i, i < ([1, 2, 3, 100] : List ℚ).length →
        (iqrBounds ([1, 2, 3, 100] : List ℚ)).1 ≤
          ([1, 2, 3, 100] : List ℚ).getD i 0 →
        ([1, 2, 3, 100] : List ℚ).getD i 0 ≤
          (iqrBounds ([1, 2, 3, 100] : List ℚ)).2 →
        (capOutliers ⟨[1, 2, 3, 100], [1, 1, 1, 1], [1, 2, 3, 100]⟩).price.getD
            i 0 = ([1, 2, 3, 100] : List ℚ).getD i 0)) ∧
    ((capOutliers ⟨[1, 2, 3, 100], [1, 1, 1, 1], [1, 2, 3, 100]⟩).quantity.length =
        ([1, 1, 1, 1] : List ℚ).length ∧
      (∀ y ∈ (capOutliers ⟨[1, 2, 3, 100], [1, 1, 1, 1], [1, 2, 3, 100]⟩).quantity,
        (iqrBounds ([1, 1, 1, 1] : List ℚ)).1 ≤ y ∧
          y ≤ (iqrBounds ([1, 1, 1, 1] : List ℚ)).2) ∧
      (∀ i, i < ([1, 1, 1, 1] : List ℚ).length →
        (iqrBounds ([1, 1, 1, 1] : List ℚ)).1 ≤
          ([1, 1, 1, 1] : List ℚ).getD i 0 →
        ([1, 1, 1, 1] : List ℚ).getD i 0 ≤
          (iqrBounds ([1, 1, 1, 1] : List ℚ)).2 →
        (capOutliers ⟨[1, 2, 3, 100], [1, 1, 1, 1], [1, 2, 3, 100]⟩).quantity.getD
            i 0 = ([1, 1, 1, 1] : List ℚ).getD i 0)) ∧
    ((capOutliers ⟨[1, 2, 3, 100], [1, 1, 1, 1], [1, 2, 3, 100]⟩).sales.length =
        ([1, 2, 3, 100] : List ℚ).length ∧
      (∀ y ∈ (capOutliers ⟨[1, 2, 3, 100], [1, 1, 1, 1], [1, 2, 3, 100]⟩).sales,
        (iqrBounds ([1, 2, 3, 100] : List ℚ)).1 ≤ y ∧
          y ≤ (iqrBounds ([1, 2, 3, 100] : List ℚ)).2) ∧
      (∀ i, i < ([1, 2, 3, 100] : List ℚ).length →
        (iqrBounds ([1, 2, 3, 100] : List ℚ)).1 ≤
          ([1, 2, 3, 100] : List ℚ).getD i 0 →
        ([1, 2, 3, 100] : List ℚ).getD i 0 ≤
          (iqrBounds ([1, 2, 3, 100] : List ℚ)).2 →
        (capOutliers ⟨[1, 2, 3, 100], [1, 1, 1, 1], [1, 2, 3, 100]⟩).sales.getD
            i 0 = ([1, 2, 3, 100] : List ℚ).getD i 0)) :=
  outlier_capping ⟨[1, 2, 3, 100], [1, 1, 1, 1], [1, 2, 3, 100]⟩
    (by decide) (by decide) (by decide)

